import Mathlib

/-!
Verification development for the nixtat store analyser (src/nixtat.py).

The program enumerates top-level directories of a nix store, measures them
in batches with the external `du -s -k` command, canonicalizes each entry
name to a package identity, aggregates size and count per identity, and
prints a ranked, percentage-annotated report.

Strings are modelled as `List Char`; Lean `Char` is a Unicode scalar value,
matching Python `str` code points.  Sizes parsed from `du` output are
modelled as `Int` (Python integers are unbounded and `int()` accepts a sign).
Percentages are modelled in exact rational arithmetic `ℚ`.
-/

/-- Lowercase base32-ish alphabet of a nix store hash: the Python regex
character class given as a range over a-z and 0-9 (ASCII only). -/
def isLowerAlnum (c : Char) : Bool :=
  (97 ≤ c.toNat && c.toNat ≤ 122) || (48 ≤ c.toNat && c.toNat ≤ 57)

/-- Models os.path.basename on a POSIX path: the part after the last '/'. -/
def osBasename (p : List Char) : List Char :=
  (p.reverse.takeWhile (fun c => !(c = '/' : Bool))).reverse

/-- Models the group of the trailing subpattern of the hash regex on the text
after the 33-character prefix.  In Python, the dot does not match a newline
and the dollar anchor matches at the end of the string or just before a
newline that ends the string, so the group is the remainder when it is
newline-free, the remainder minus a single trailing newline when that is the
only newline, and the whole regex fails to match otherwise. -/
def groupDotStar (r : List Char) : Option (List Char) :=
  if r.contains '\n' = false then some r
  else if r.getLast? = some '\n' && r.dropLast.contains '\n' = false then
    some r.dropLast
  else none

/-- Models the hash-stripping regex match of parse_package_name
(src/nixtat.py line 50): 32 lowercase alphanumerics, a dash, then the rest.
Returns the captured working name, or none when the match fails. -/
def hashStrip (b : List Char) : Option (List Char) :=
  if (b.take 32).length = 32 && (b.take 32).all isLowerAlnum then
    match b.drop 32 with
    | '-' :: r => groupDotStar r
    | _ => none
  else none

/-- Holds when the dash just consumed is followed by a digit and the rest of
the line is matchable by the dot-star-dollar tail of the version regex. -/
def dashDigitOk (rest : List Char) : Bool :=
  match rest with
  | d :: t =>
    d.isDigit &&
      (t.contains '\n' = false ||
        (t.getLast? = some '\n' && t.dropLast.contains '\n' = false))
  | [] => false

/-- Models the lazy scan of the version regex of parse_package_name
(src/nixtat.py line 64).  At each position, the engine first tries the
optional dash-digit group, then the end anchor; the lazy leading group can
never cross a newline.  Returns the captured leading group, or none when the
whole regex fails to match. -/
def svAux : List Char → Option (List Char)
  | [] => some []
  | c :: rest =>
    if c = '\n' ∧ rest = [] then some []
    else if c = '-' ∧ dashDigitOk rest = true then some []
    else if c = '\n' then none
    else (svAux rest).map (fun p => c :: p)

/-- Version stripping of parse_package_name (src/nixtat.py lines 64-68):
the captured leading group when the regex matches, the whole working name
otherwise (the fallback return at line 68). -/
def stripVersion (w : List Char) : List Char :=
  match svAux w with
  | some p => p
  | none => w

/-- Embeds parse_package_name (src/nixtat.py lines 41-68): basename, hash
stripping with fallback to the whole basename, then version stripping
unless keep_version is set. -/
def parse_package_name (path : List Char) (keepVersion : Bool) : List Char :=
  match hashStrip (osBasename path) with
  | none => osBasename path
  | some w => if keepVersion then w else stripVersion w

/-- Modelled from the spec: the longest leading substring of the working
name up to but not including the first occurrence of a dash immediately
followed by a digit, the whole working name when no such boundary exists. -/
def specVersionPart : List Char → List Char
  | [] => []
  | c :: rest =>
    if c = '-' ∧ (match rest with | d :: _ => d.isDigit | [] => false) = true then []
    else c :: specVersionPart rest

example : parse_package_name ("go-1.25.4".toList) false = "go-1.25.4".toList := by decide
example : parse_package_name ("go-1.25.4".toList) false ≠ "go".toList := by decide
example :
    parse_package_name (("aaaabbbbccccddddeeeeffffgggghhhh-go-1.25.4").toList) false
      = "go".toList := by decide
example :
    parse_package_name (("aaaabbbbccccddddeeeeffffgggghhhh-python3-3.9").toList) false
      = "python3".toList := by decide
example :
    parse_package_name (("aaaabbbbccccddddeeeeffffgggghhhh-source").toList) false
      = "source".toList := by decide
example :
    parse_package_name (("/nix/store/aaaabbbbccccddddeeeeffffgggghhhh-go-1.25.4").toList) true
      = "go-1.25.4".toList := by decide
example : specVersionPart ("go-1.25.4".toList) = "go".toList := by decide
example : stripVersion ("a-b-1".toList) = "a-b".toList := by decide

/-! ### Aggregation state

Python keeps `stats` as a defaultdict from package name to a dict with keys
size and count; iteration order of a Python dict is insertion order, which
matters for the stability of the final sort, so the state is modelled as an
association list in insertion order, new identities appended at the end. -/

/-- One aggregated identity: insertion-ordered entry of the stats dict. -/
structure StatEntry where
  name : List Char
  size : Int
  count : Nat
deriving DecidableEq

/-- The aggregation dictionary in insertion order. -/
abbrev Stats := List StatEntry

/-- Models the two defaultdict updates of src/nixtat.py lines 150-151: add
size and bump count for the identity, creating a zero entry (appended at the
end, as a Python dict does) when the identity is new. -/
def updateStats : Stats → List Char → Int → Stats
  | [], name, k => [⟨name, k, 1⟩]
  | e :: rest, name, k =>
    if e.name = name then ⟨e.name, e.size + k, e.count + 1⟩ :: rest
    else e :: updateStats rest name k

/-! ### Parsing `du` output lines -/

/-- Models Python str.split on a tab: every tab is a separator and empty
fields are kept, so the result always has one more field than there are
tabs. -/
def splitTab : List Char → List (List Char)
  | [] => [[]]
  | c :: rest =>
    match splitTab rest with
    | [] => [[]]
    | f :: fs => if c = '\t' then [] :: f :: fs else (c :: f) :: fs

/-- Whitespace stripped by Python int() around a numeric literal (the ASCII
whitespace characters; Python also strips rarer Unicode spaces, which no
`du` output contains and which are not modelled). -/
def isPySpace (c : Char) : Bool :=
  c = ' ' || c = '\t' || c = '\n' || c = '\r' || c.toNat = 11 || c.toNat = 12

/-- Digit run of a Python int literal after its first digit: digits, with
single underscores allowed only between two digits. -/
def digitsCore (acc : Nat) : List Char → Option Nat
  | [] => some acc
  | c :: rest =>
    if c.isDigit then digitsCore (acc * 10 + (c.toNat - 48)) rest
    else if c = '_' then
      match rest with
      | d :: rest' =>
        if d.isDigit then digitsCore (acc * 10 + (d.toNat - 48)) rest' else none
      | [] => none
    else none

/-- Digit run of a Python int literal: must start with a digit. -/
def digitsFirst : List Char → Option Nat
  | [] => none
  | c :: rest => if c.isDigit then digitsCore (c.toNat - 48) rest else none

/-- Models Python int(str) as used at src/nixtat.py line 140: surrounding
whitespace stripped, a single optional sign, then a nonempty digit run;
none models the ValueError branch.  Note that a leading minus sign is
accepted, so negative sizes parse. -/
def pyIntOpt (s : List Char) : Option Int :=
  let t := ((s.dropWhile isPySpace).reverse.dropWhile isPySpace).reverse
  match t with
  | '+' :: r => (digitsFirst r).map (fun n => (n : Int))
  | '-' :: r => (digitsFirst r).map (fun n => -(n : Int))
  | r => (digitsFirst r).map (fun n => (n : Int))

/-- Models the per-line checks of src/nixtat.py lines 134-144: the line must
split into exactly two tab-separated fields and the first must parse as a
Python int; returns the (size, path) measurement, none when the line is
skipped by a continue. -/
def parseDuLine (line : List Char) : Option (Int × List Char) :=
  match splitTab line with
  | [f, p] =>
    match pyIntOpt f with
    | some k => some (k, p)
    | none => none
  | _ => none

/-! ### The per-line loop body

The loop body at src/nixtat.py lines 134-154 updates the stats dict and, when
the rich progress bar is active (-H mode), advances it by one.  The state is
the stats dict together with the number of progress ticks emitted so far. -/

/-- One iteration of the stdout-line loop: skip the line (state unchanged,
no tick, no error surfaced) or aggregate it and, when the progress bar is
active, emit one tick. -/
def lineStep (rich keepVersion : Bool) (st : Stats × Nat) (line : List Char) :
    Stats × Nat :=
  match parseDuLine line with
  | none => st
  | some (k, p) =>
    (updateStats st.1 (parse_package_name p keepVersion) k,
     st.2 + (if rich then 1 else 0))

/-- The whole stdout-line loop over one batch's output. -/
def processLines (rich keepVersion : Bool) (st : Stats × Nat)
    (lines : List (List Char)) : Stats × Nat :=
  lines.foldl (lineStep rich keepVersion) st

example :
    processLines true false ([], 0) ["4\t/nix/store/x".toList]
      = ([⟨"x".toList, 4, 1⟩], 1) := by decide
example :
    processLines true false ([], 0) ["-5\t/nix/store/abc".toList]
      = ([⟨"abc".toList, -5, 1⟩], 1) := by decide
example : pyIntOpt ("  -5 ".toList) = some (-5) := by decide
example : pyIntOpt ("5_0".toList) = some 50 := by decide
example : pyIntOpt ("5_".toList) = none := by decide
example : pyIntOpt ("".toList) = none := by decide
example : parseDuLine ("a\tb\tc".toList) = none := by decide

/-! ### Batch size -/

/-- Models CHUNK_SIZE at src/nixtat.py line 91. -/
def chunkSize (n : Nat) : Nat := Nat.max 100 (Nat.min 1000 (n / 100))

/-! ### Sorting the results

src/nixtat.py line 170 calls Python sorted with a key function and a reverse
flag.  Python's sorted is specified as a stable sort: ties keep their
original relative order, and with reverse set the comparator is inverted
while ties still keep their original order.  A stable sort is extensionally
unique, so it is modelled by stable insertion sort over the effective
boolean comparator; sortedness, permutation and stability are proved below,
which justifies the model. -/

/-- The sort column chosen by the --sort flag. -/
inductive SortKey where
  | size
  | count
  | name
deriving DecidableEq

/-- Python string comparison: lexicographic on code points. -/
def lexLe : List Char → List Char → Bool
  | [], _ => true
  | _ :: _, [] => false
  | a :: as, b :: bs =>
    if a.toNat < b.toNat then true
    else if b.toNat < a.toNat then false
    else lexLe as bs

/-- The ascending comparison induced by the key function of src/nixtat.py
lines 165-169. -/
def keyLe (sk : SortKey) (a b : StatEntry) : Bool :=
  match sk with
  | .size => a.size ≤ b.size
  | .count => a.count ≤ b.count
  | .name => lexLe a.name b.name

/-- The effective comparator after the reverse flag: the inverted key
comparison when reverse is set. -/
def effLe (sk : SortKey) (rev : Bool) (a b : StatEntry) : Bool :=
  if rev then keyLe sk b a else keyLe sk a b

/-- Two entries that compare equal under the sort key. -/
def keyTie (sk : SortKey) (a b : StatEntry) : Bool :=
  keyLe sk a b && keyLe sk b a

/-- Stable insertion into a list: the new element goes in front of the
first element it compares less-or-equal to. -/
def insertTE (le : StatEntry → StatEntry → Bool) (a : StatEntry) :
    Stats → Stats
  | [] => [a]
  | b :: l => if le a b then a :: b :: l else b :: insertTE le a l

/-- Stable insertion sort; earlier elements are inserted into the sorted
tail, so ties keep their original relative order. -/
def sortTE (le : StatEntry → StatEntry → Bool) : Stats → Stats
  | [] => []
  | a :: l => insertTE le a (sortTE le l)

/-- Models sorted(stats.items(), key=key_map[args.sort], reverse=args.reverse)
at src/nixtat.py line 170. -/
def sortedStats (items : Stats) (sk : SortKey) (rev : Bool) : Stats :=
  sortTE (effLe sk rev) items

/-! ### Percentages and report rows (src/nixtat.py lines 172-180)

Python computes the percentages in floating point; claims about them are
stated for exact arithmetic, so the model uses ℚ. -/

/-- One element of processed_stats. -/
structure Row where
  name : List Char
  size : Int
  count : Nat
  perc : ℚ
  cumPerc : ℚ
deriving DecidableEq

/-- Sum of the sizes of a list of entries. -/
def sumSizes (l : Stats) : Int := (l.map StatEntry.size).sum

/-- The guarded percentage expression of src/nixtat.py lines 178-179:
x divided by the total times 100 when the total is positive, else 0; the
guard means the division is never executed with a zero total. -/
def pperc (total : Int) (x : Int) : ℚ :=
  if 0 < total then (x : ℚ) / (total : ℚ) * 100 else 0

/-- The loop of src/nixtat.py lines 174-180, walking the sorted entries
while accumulating the cumulative size. -/
def processedAux (total : Int) : Int → Stats → List Row
  | _, [] => []
  | cum, e :: rest =>
    ⟨e.name, e.size, e.count, pperc total e.size, pperc total (cum + e.size)⟩
      :: processedAux total (cum + e.size) rest

/-- processed_stats: the full, untruncated report row list, built from the
sorted entries with total_size the sum over the sorted list. -/
def processedStats (items : Stats) (sk : SortKey) (rev : Bool) : List Row :=
  processedAux (sumSizes (sortedStats items sk rev)) 0 (sortedStats items sk rev)

/-! ### Display stage (src/nixtat.py lines 182-221) -/

/-- The immutable configuration derived from the CLI flags.  heightLimit
models int(console.size.height * 0.8), an environment-dependent value read
from the terminal (and subject to floating-point rounding), kept abstract. -/
structure Config where
  humanReadable : Bool
  withVersion : Bool
  verbose : Bool
  sortKey : SortKey
  reverse : Bool
  nOpt : Option Int
  full : Bool
  heightLimit : Int

/-- The row limit of src/nixtat.py lines 186-191: the full length when
--full is set, else the -n value when given, else the terminal-derived
default. -/
def displayLimit (cfg : Config) (rowCount : Nat) : Int :=
  if cfg.full then (rowCount : Int)
  else
    match cfg.nOpt with
    | some n => n
    | none => cfg.heightLimit

/-- Models processed_stats sliced for display at src/nixtat.py line 202:
the Python tail slice with the negated limit when the limit is positive,
the empty list otherwise. -/
def displaySubset (limit : Int) (rows : List Row) : List Row :=
  if 0 < limit then rows.drop (rows.length - limit.toNat) else []

/-- Modelled from the spec: the last N rows of a sequence. -/
def specLastRows (n : Int) (rows : List Row) : List Row :=
  ((rows.reverse.take n.toNat)).reverse

/-- The rows that reach the output: the bounded table subset in
human-readable mode, every processed row (one printed line each) in plain
mode (src/nixtat.py lines 218-221). -/
def displayedRows (cfg : Config) (rows : List Row) : List Row :=
  if cfg.humanReadable then displaySubset (displayLimit cfg rows.length) rows
  else rows

/-! ## Supporting lemmas -/

lemma takeWhile_of_forall {p : Char → Bool} :
    ∀ l : List Char, (∀ c ∈ l, p c = true) → l.takeWhile p = l := by
  intro l
  induction l with
  | nil => intro _; rfl
  | cons c cs ih =>
    intro h
    rw [List.takeWhile_cons, if_pos (h c (List.mem_cons_self c cs))]
    rw [ih (fun x hx => h x (List.mem_cons_of_mem c hx))]

lemma osBasename_eq {b : List Char} (hb : '/' ∉ b) : osBasename b = b := by
  unfold osBasename
  rw [takeWhile_of_forall b.reverse, List.reverse_reverse]
  intro c hc
  have : c ≠ '/' := by
    intro hEq
    exact hb (List.mem_reverse.mp (hEq ▸ hc))
  simp [this]

lemma all_lowerAlnum_no_slash {h : List Char} (hal : h.all isLowerAlnum = true) :
    '/' ∉ h := by
  intro hmem
  have := (List.all_eq_true.mp hal) '/' hmem
  simp [isLowerAlnum] at this

lemma hashStrip_append {h r : List Char} (h32 : h.length = 32)
    (hal : h.all isLowerAlnum = true) (hr : '\n' ∉ r) :
    hashStrip (h ++ '-' :: r) = some r := by
  unfold hashStrip
  have ht : (h ++ '-' :: r).take 32 = h := by
    rw [← h32]; exact List.take_left h _
  have hd : (h ++ '-' :: r).drop 32 = '-' :: r := by
    rw [← h32]; exact List.drop_left h _
  rw [ht, hd]
  simp [h32, hal, groupDotStar, hr]

lemma hashStrip_append_nl {h r : List Char} (h32 : h.length = 32)
    (hal : h.all isLowerAlnum = true) (hr : '\n' ∉ r) :
    hashStrip (h ++ '-' :: (r ++ ['\n'])) = some r := by
  unfold hashStrip
  have ht : (h ++ '-' :: (r ++ ['\n'])).take 32 = h := by
    rw [← h32]; exact List.take_left h _
  have hd : (h ++ '-' :: (r ++ ['\n'])).drop 32 = '-' :: (r ++ ['\n']) := by
    rw [← h32]; exact List.drop_left h _
  rw [ht, hd]
  simp [h32, hal, groupDotStar, hr, List.getLast?_concat, List.dropLast_concat]

lemma groupDotStar_some {r w : List Char} (h : groupDotStar r = some w) :
    '\n' ∉ w := by
  unfold groupDotStar at h
  split at h
  next hc =>
    cases h
    simpa using hc
  next =>
    split at h
    next hc2 =>
      cases h
      have h2 := (Bool.and_eq_true _ _).mp hc2
      simpa using of_decide_eq_true h2.2
    next => cases h

lemma hashStrip_no_newline {b w : List Char} (hw : hashStrip b = some w) :
    '\n' ∉ w := by
  unfold hashStrip at hw
  split at hw
  · split at hw
    · exact groupDotStar_some hw
    · cases hw
  · cases hw

lemma svAux_cons (c : Char) (rest : List Char) :
    svAux (c :: rest) =
      if c = '\n' ∧ rest = [] then some []
      else if c = '-' ∧ dashDigitOk rest = true then some []
      else if c = '\n' then none
      else (svAux rest).map (fun p => c :: p) := rfl

lemma specVersionPart_cons (c : Char) (rest : List Char) :
    specVersionPart (c :: rest) =
      if c = '-' ∧ (match rest with | d :: _ => d.isDigit | [] => false) = true then []
      else c :: specVersionPart rest := rfl

lemma svAux_no_newline :
    ∀ w : List Char, '\n' ∉ w → svAux w = some (specVersionPart w) := by
  intro w
  induction w with
  | nil => intro _; rfl
  | cons c rest ih =>
    intro h
    have hcne : ¬ (c = '\n') :=
      fun hEq => h (by rw [← hEq]; exact List.mem_cons_self c rest)
    have hrest : '\n' ∉ rest := fun hm => h (List.mem_cons_of_mem c hm)
    cases rest with
    | nil =>
      simp [svAux, specVersionPart, dashDigitOk, hcne]
    | cons d t =>
      have ht : '\n' ∉ t := fun hm => hrest (List.mem_cons_of_mem d hm)
      have hddOk : dashDigitOk (d :: t) = d.isDigit := by
        simp [dashDigitOk, ht]
      have hsv := ih hrest
      rw [svAux_cons, specVersionPart_cons]
      rw [if_neg (fun hh => hcne hh.1)]
      by_cases hcdash : c = '-'
      · by_cases hdig : d.isDigit = true
        · rw [if_pos ⟨hcdash, by rw [hddOk]; exact hdig⟩, if_pos ⟨hcdash, hdig⟩]
        · rw [if_neg (fun hh => hdig (hddOk ▸ hh.2)), if_neg hcne, hsv,
            if_neg (fun hh => hdig hh.2)]
          rfl
      · rw [if_neg (fun hh => hcdash hh.1), if_neg hcne, hsv,
          if_neg (fun hh => hcdash hh.1)]
        rfl

lemma stripVersion_of_no_newline {w : List Char} (h : '\n' ∉ w) :
    stripVersion w = specVersionPart w := by
  unfold stripVersion
  rw [svAux_no_newline w h]

/-! ## C9: batch size policy -/

/-- C9: the batch size equals totalEntries / 100 clamped into [100, 1000]:
100 below the range, 1000 above it, the quotient inside it. -/
theorem c9_chunk_size (n : Nat) :
    chunkSize n =
      (if n / 100 < 100 then 100 else if 1000 < n / 100 then 1000 else n / 100) ∧
    100 ≤ chunkSize n ∧ chunkSize n ≤ 1000 := by
  refine ⟨?_, ?_, ?_⟩ <;> unfold chunkSize <;>
    simp only [Nat.max_def, Nat.min_def] <;> (repeat' split) <;> omega

/-! ## C1: version stripping -/

/-- C1 counterexample: the claim includes identity("go-1.25.4", false) = "go",
but a basename without a 32-character hash prefix does not match the hash
regex, so parse_package_name returns it unchanged (src/nixtat.py line 53) and
never reaches the version-stripping step. -/
theorem c1_counterexample :
    parse_package_name ("go-1.25.4".toList) false = "go-1.25.4".toList ∧
    "go-1.25.4".toList ≠ "go".toList := by decide

/-- C1 amended: for every slash-free basename that matches the hash pattern,
with working name w the captured hash-stripped remainder, keepVersion=false
returns the longest leading substring of w up to but not including the first
dash-digit boundary (the whole w when none exists, as specVersionPart
states), and keepVersion=true leaves w intact.  Basenames that do not match
the hash pattern are returned unchanged without version stripping. -/
theorem c1_version_stripping (b w : List Char) (hb : '/' ∉ b)
    (hw : hashStrip b = some w) :
    parse_package_name b false = specVersionPart w ∧
    parse_package_name b true = w := by
  unfold parse_package_name
  rw [osBasename_eq hb, hw]
  exact ⟨stripVersion_of_no_newline (hashStrip_no_newline hw), rfl⟩

/-- Concrete instantiation of c1_version_stripping on a hash-prefixed
go-1.25.4 basename. -/
theorem c1_version_stripping_witness :
    parse_package_name (List.replicate 32 'a' ++ '-' :: "go-1.25.4".toList) false
      = "go".toList ∧
    parse_package_name (List.replicate 32 'a' ++ '-' :: "go-1.25.4".toList) true
      = "go-1.25.4".toList := by
  have h := c1_version_stripping
    (List.replicate 32 'a' ++ '-' :: "go-1.25.4".toList) ("go-1.25.4".toList)
    (by decide) (by decide)
  refine ⟨?_, h.2⟩
  rw [h.1]
  decide

/-! ## C4: hash stripping -/

/-- The basename of the C4 counterexample: a hash-shaped prefix whose
remainder contains an interior newline. -/
def c4NlName : List Char := List.replicate 32 'a' ++ '-' :: "x\ny".toList

/-- C4 counterexample: a basename made of 32 lowercase alphanumerics, a
dash, and a remainder whose newline is interior.  The Python dot does not
match a newline, so the hash regex fails to match and parse_package_name
returns the whole basename instead of stripping the 33-character prefix. -/
theorem c4_counterexample :
    (List.replicate 32 'a').length = 32 ∧
    (List.replicate 32 'a').all isLowerAlnum = true ∧
    c4NlName.drop 33 = "x\ny".toList ∧
    parse_package_name c4NlName true = c4NlName ∧
    parse_package_name c4NlName false = c4NlName ∧
    c4NlName ≠ "x\ny".toList := by decide

/-- C4 amended: for every basename of 32 lowercase alphanumerics, a dash,
and a newline-free remainder, parse_package_name strips exactly that
33-character prefix for both keepVersion values and proceeds with the
remainder; when the remainder has exactly one newline, at its end, the
prefix and that trailing newline are both stripped; every other basename
(in particular one whose remainder has an interior newline) is returned
whole, with no version stripping and no failure. -/
theorem c4_hash_stripping :
    (∀ (h r : List Char) (kv : Bool),
       h.length = 32 → h.all isLowerAlnum = true → '\n' ∉ r → '/' ∉ r →
         hashStrip (h ++ '-' :: r) = some r ∧
         parse_package_name (h ++ '-' :: r) kv
           = (if kv then r else stripVersion r)) ∧
    (∀ (h r : List Char) (kv : Bool),
       h.length = 32 → h.all isLowerAlnum = true → '\n' ∉ r → '/' ∉ r →
         parse_package_name (h ++ '-' :: (r ++ ['\n'])) kv
           = (if kv then r else stripVersion r)) ∧
    (∀ (b : List Char) (kv : Bool), '/' ∉ b → hashStrip b = none →
       parse_package_name b kv = b) := by
  refine ⟨?_, ?_, ?_⟩
  · intro h r kv h32 hal hnl hsl
    have hslash : '/' ∉ h ++ '-' :: r := by
      intro hm
      rcases List.mem_append.mp hm with hm | hm
      · exact all_lowerAlnum_no_slash hal hm
      · rcases List.mem_cons.mp hm with hm | hm
        · cases hm
        · exact hsl hm
    have hs := hashStrip_append h32 hal hnl
    refine ⟨hs, ?_⟩
    unfold parse_package_name
    rw [osBasename_eq hslash, hs]
  · intro h r kv h32 hal hnl hsl
    have hslash : '/' ∉ h ++ '-' :: (r ++ ['\n']) := by
      intro hm
      rcases List.mem_append.mp hm with hm | hm
      · exact all_lowerAlnum_no_slash hal hm
      · rcases List.mem_cons.mp hm with hm | hm
        · cases hm
        · rcases List.mem_append.mp hm with hm | hm
          · exact hsl hm
          · rcases List.mem_cons.mp hm with hm | hm
            · cases hm
            · cases hm
    have hs := hashStrip_append_nl h32 hal hnl
    unfold parse_package_name
    rw [osBasename_eq hslash, hs]
  · intro b kv hb hn
    unfold parse_package_name
    rw [osBasename_eq hb, hn]

/-- Concrete instantiation of c4_hash_stripping: the prefix is stripped from
a hash-prefixed basename, and a basename without the pattern (bare source)
is returned unchanged. -/
theorem c4_hash_stripping_witness :
    parse_package_name (List.replicate 32 'b' ++ '-' :: "go-1.25.4".toList) true
      = "go-1.25.4".toList ∧
    parse_package_name ("source".toList) false = "source".toList := by
  have h1 := (c4_hash_stripping.1 (List.replicate 32 'b') ("go-1.25.4".toList)
    true (by decide) (by decide) (by decide) (by decide)).2
  have h2 := c4_hash_stripping.2.2 ("source".toList) false (by decide) (by decide)
  exact ⟨by rw [h1]; rfl, h2⟩

/-! ## C2: progress ticks -/

/-- C2 counterexample: a batch of two submitted paths for which the sizing
facility produced a single success line (the second path failed and emitted
none).  The loop of src/nixtat.py lines 134-154 advances the progress bar
only after a line parses, so exactly one tick is emitted, not one per input
path of the batch. -/
theorem c2_counterexample :
    (processLines true false ([], 0) ["4\t/nix/store/x".toList]).2 = 1 ∧
    (["/nix/store/x".toList, "/nix/store/y".toList]).length = 2 ∧
    (1 : Nat) ≠ 2 := by decide

/-- C2 amended: with the progress bar active, exactly one tick is emitted
per success-channel line that passes the parsing checks (exactly two
tab-separated fields, first field an integer); malformed lines and paths
that produced no output line contribute no tick. -/
theorem c2_tick_per_line (kv : Bool) (s : Stats) (t : Nat)
    (lines : List (List Char)) :
    (processLines true kv (s, t) lines).2
      = t + (lines.countP (fun l => (parseDuLine l).isSome)) := by
  induction lines generalizing s t with
  | nil => simp [processLines]
  | cons l ls ih =>
    have hstep : processLines true kv (s, t) (l :: ls)
        = processLines true kv (lineStep true kv (s, t) l) ls := rfl
    rw [hstep]
    unfold lineStep
    cases hp : parseDuLine l with
    | none =>
      rw [List.countP_cons]
      simp [hp, ih]
    | some kp =>
      rw [List.countP_cons]
      have := ih (updateStats s (parse_package_name kp.2 kv) kp.1) (t + 1)
      simp [hp, this]
      omega

/-! ## C3: success-line filtering -/

/-- C3 counterexample: a success line whose first field is the negative
integer -5 passes the int() parse of src/nixtat.py line 140 and is
aggregated, although its first field is not a non-negative integer; so the
contributes-iff-non-negative claim fails. -/
theorem c3_counterexample :
    processLines true false ([], 0) ["-5\t/nix/store/abc".toList]
      = ([⟨"abc".toList, -5, 1⟩], 1) ∧
    splitTab ("-5\t/nix/store/abc".toList)
      = ["-5".toList, "/nix/store/abc".toList] ∧
    pyIntOpt ("-5".toList) = some (-5) ∧
    ((-5 : Int) < 0) := by decide

/-- C3 amended: a success line contributes a measurement to aggregation if
and only if it splits into exactly two tab-separated fields and its first
field parses as an integer under Python int() syntax (a sign is allowed);
a line failing either check leaves the state untouched: it is skipped with
no output, no tick and no abort. -/
theorem c3_line_acceptance (rich kv : Bool) (s : Stats) (t : Nat)
    (line : List Char) :
    ((splitTab line).length ≠ 2 → lineStep rich kv (s, t) line = (s, t)) ∧
    (∀ f p, splitTab line = [f, p] → pyIntOpt f = none →
       lineStep rich kv (s, t) line = (s, t)) ∧
    (∀ f p k, splitTab line = [f, p] → pyIntOpt f = some k →
       lineStep rich kv (s, t) line
         = (updateStats s (parse_package_name p kv) k,
            t + (if rich then 1 else 0))) := by
  refine ⟨?_, ?_, ?_⟩
  · intro hlen
    unfold lineStep parseDuLine
    cases hsp : splitTab line with
    | nil => rfl
    | cons f rest =>
      cases rest with
      | nil => rfl
      | cons p rest2 =>
        cases rest2 with
        | nil => exact absurd (by rw [hsp]; rfl) hlen
        | cons q rest3 => rfl
  · intro f p hsp hnone
    unfold lineStep parseDuLine
    rw [hsp]
    simp [hnone]
  · intro f p k hsp hsome
    unfold lineStep parseDuLine
    rw [hsp]
    simp [hsome]

/-- Concrete instantiation of c3_line_acceptance on an accepted line and on
a malformed three-field line. -/
theorem c3_line_acceptance_witness :
    lineStep true false ([], 0) ("12\t/nix/store/q".toList)
      = ([⟨"q".toList, 12, 1⟩], 1) ∧
    lineStep true false ([], 0) ("a\tb\tc".toList) = ([], 0) := by
  have h1 := (c3_line_acceptance true false [] 0 ("12\t/nix/store/q".toList)).2.2
    ("12".toList) ("/nix/store/q".toList) 12 (by decide) (by decide)
  have h2 := (c3_line_acceptance true false [] 0 ("a\tb\tc".toList)).1
    (by decide)
  refine ⟨?_, h2⟩
  rw [h1]
  decide

/-! ## Sorting lemmas -/

lemma insertTE_perm (le : StatEntry → StatEntry → Bool) (a : StatEntry) :
    ∀ l : Stats, (insertTE le a l).Perm (a :: l) := by
  intro l
  induction l with
  | nil => exact List.Perm.refl _
  | cons b m ih =>
    unfold insertTE
    split
    · exact List.Perm.refl _
    · exact (List.Perm.cons b ih).trans (List.Perm.swap a b m)

lemma sortTE_perm (le : StatEntry → StatEntry → Bool) :
    ∀ l : Stats, (sortTE le l).Perm l := by
  intro l
  induction l with
  | nil => exact List.Perm.refl _
  | cons a m ih =>
    exact (insertTE_perm le a (sortTE le m)).trans (List.Perm.cons a ih)

lemma mem_insertTE {le : StatEntry → StatEntry → Bool} {a x : StatEntry}
    {l : Stats} (hx : x ∈ insertTE le a l) : x = a ∨ x ∈ l :=
  List.mem_cons.mp ((insertTE_perm le a l).mem_iff.mp hx)

lemma pairwise_insertTE {le : StatEntry → StatEntry → Bool}
    (htot : ∀ x y, le x y = true ∨ le y x = true)
    (htr : ∀ x y z, le x y = true → le y z = true → le x z = true)
    (a : StatEntry) :
    ∀ l : Stats, l.Pairwise (fun x y => le x y = true) →
      (insertTE le a l).Pairwise (fun x y => le x y = true) := by
  intro l
  induction l with
  | nil => intro _; exact List.pairwise_singleton _ a
  | cons b m ih =>
    intro hp
    obtain ⟨hb, hm⟩ := List.pairwise_cons.mp hp
    unfold insertTE
    split
    next hab =>
      refine List.pairwise_cons.mpr ⟨?_, hp⟩
      intro x hx
      rcases List.mem_cons.mp hx with hx | hx
      · rw [hx]; exact hab
      · exact htr a b x hab (hb x hx)
    next hab =>
      have hba : le b a = true := by
        rcases htot a b with h | h
        · exact absurd h hab
        · exact h
      refine List.pairwise_cons.mpr ⟨?_, ih hm⟩
      intro x hx
      rcases mem_insertTE hx with hx | hx
      · rw [hx]; exact hba
      · exact hb x hx

lemma pairwise_sortTE {le : StatEntry → StatEntry → Bool}
    (htot : ∀ x y, le x y = true ∨ le y x = true)
    (htr : ∀ x y z, le x y = true → le y z = true → le x z = true) :
    ∀ l : Stats, (sortTE le l).Pairwise (fun x y => le x y = true) := by
  intro l
  induction l with
  | nil => exact List.Pairwise.nil
  | cons a m ih => exact pairwise_insertTE htot htr a (sortTE le m) ih

lemma filter_insertTE_pos {le : StatEntry → StatEntry → Bool}
    {q : StatEntry → Bool}
    (hq : ∀ x y, q x = true → q y = true → le x y = true)
    {a : StatEntry} (ha : q a = true) :
    ∀ m : Stats, (insertTE le a m).filter q = a :: m.filter q := by
  intro m
  induction m with
  | nil => simp [insertTE, ha]
  | cons b m ih =>
    unfold insertTE
    split
    next hab => simp [List.filter_cons, ha]
    next hab =>
      have hqb : q b = false := by
        cases hqb : q b with
        | false => rfl
        | true => exact absurd (hq a b ha hqb) hab
      simp [List.filter_cons, hqb, ih]

lemma filter_insertTE_neg {le : StatEntry → StatEntry → Bool}
    {q : StatEntry → Bool} {a : StatEntry} (ha : q a = false) :
    ∀ m : Stats, (insertTE le a m).filter q = m.filter q := by
  intro m
  induction m with
  | nil => simp [insertTE, ha]
  | cons b m ih =>
    unfold insertTE
    split
    next hab => simp [List.filter_cons, ha]
    next hab => simp [List.filter_cons, ih]

lemma filter_sortTE {le : StatEntry → StatEntry → Bool}
    {q : StatEntry → Bool}
    (hq : ∀ x y, q x = true → q y = true → le x y = true) :
    ∀ l : Stats, (sortTE le l).filter q = l.filter q := by
  intro l
  induction l with
  | nil => rfl
  | cons a m ih =>
    show (insertTE le a (sortTE le m)).filter q = (a :: m).filter q
    cases ha : q a with
    | true => rw [filter_insertTE_pos hq ha, ih, List.filter_cons, ha]; rfl
    | false => rw [filter_insertTE_neg ha, ih, List.filter_cons, ha]; rfl

lemma lexLe_total : ∀ a b : List Char, lexLe a b = true ∨ lexLe b a = true := by
  intro a
  induction a with
  | nil => intro b; left; rfl
  | cons x xs ih =>
    intro b
    cases b with
    | nil => right; rfl
    | cons y ys =>
      by_cases hxy : x.toNat < y.toNat
      · left; simp [lexLe, hxy]
      · by_cases hyx : y.toNat < x.toNat
        · right; simp [lexLe, hyx]
        · rcases ih ys with h | h
          · left; simp [lexLe, hxy, hyx, h]
          · right; simp [lexLe, hxy, hyx, h]

lemma lexLe_trans :
    ∀ a b c : List Char, lexLe a b = true → lexLe b c = true →
      lexLe a c = true := by
  intro a
  induction a with
  | nil => intro b c _ _; rfl
  | cons x xs ih =>
    intro b c hab hbc
    cases b with
    | nil => simp [lexLe] at hab
    | cons y ys =>
      cases c with
      | nil => simp [lexLe] at hbc
      | cons z zs =>
        simp only [lexLe] at hab hbc ⊢
        by_cases hxy : x.toNat < y.toNat
        · by_cases hyz : y.toNat < z.toNat
          · have : x.toNat < z.toNat := Nat.lt_trans hxy hyz
            simp [this]
          · by_cases hzy : z.toNat < y.toNat
            · simp [hyz, hzy] at hbc
            · have hyez : y.toNat = z.toNat := Nat.le_antisymm
                (Nat.le_of_not_lt hzy) (Nat.le_of_not_lt hyz)
              have : x.toNat < z.toNat := hyez ▸ hxy
              simp [this]
        · by_cases hyx : y.toNat < x.toNat
          · simp [hxy, hyx] at hab
          · have hxey : x.toNat = y.toNat := Nat.le_antisymm
              (Nat.le_of_not_lt hyx) (Nat.le_of_not_lt hxy)
            by_cases hyz : y.toNat < z.toNat
            · have : x.toNat < z.toNat := hxey ▸ hyz
              simp [this]
            · by_cases hzy : z.toNat < y.toNat
              · simp [hyz, hzy] at hbc
              · simp only [hxy, hyx, if_neg, ite_false] at hab
                simp only [hyz, hzy, if_neg, ite_false] at hbc
                have hxz : ¬ x.toNat < z.toNat := by omega
                have hzx : ¬ z.toNat < x.toNat := by omega
                simp [hxz, hzx]
                exact ih ys zs (by simpa [hxy, hyx] using hab)
                  (by simpa [hyz, hzy] using hbc)

lemma keyLe_total (sk : SortKey) :
    ∀ x y, keyLe sk x y = true ∨ keyLe sk y x = true := by
  intro x y
  cases sk with
  | size => unfold keyLe; rcases Int.le_total x.size y.size with h | h <;>
      simp [h]
  | count => unfold keyLe; rcases Nat.le_total x.count y.count with h | h <;>
      simp [h]
  | name => exact lexLe_total x.name y.name

lemma keyLe_trans (sk : SortKey) :
    ∀ x y z, keyLe sk x y = true → keyLe sk y z = true →
      keyLe sk x z = true := by
  intro x y z hxy hyz
  cases sk with
  | size =>
    unfold keyLe at hxy hyz ⊢
    simp only [decide_eq_true_eq] at hxy hyz ⊢
    omega
  | count =>
    unfold keyLe at hxy hyz ⊢
    simp only [decide_eq_true_eq] at hxy hyz ⊢
    omega
  | name => exact lexLe_trans x.name y.name z.name hxy hyz

lemma effLe_total (sk : SortKey) (rev : Bool) :
    ∀ x y, effLe sk rev x y = true ∨ effLe sk rev y x = true := by
  intro x y
  unfold effLe
  cases rev with
  | false => simpa using keyLe_total sk x y
  | true => simpa using keyLe_total sk y x

lemma effLe_trans (sk : SortKey) (rev : Bool) :
    ∀ x y z, effLe sk rev x y = true → effLe sk rev y z = true →
      effLe sk rev x z = true := by
  intro x y z hxy hyz
  unfold effLe at hxy hyz ⊢
  cases rev with
  | false => exact keyLe_trans sk x y z (by simpa using hxy) (by simpa using hyz)
  | true => exact keyLe_trans sk z y x (by simpa using hyz) (by simpa using hxy)

/-! ## C8: stable sort -/

/-- Example list with a size tie (entries a and b both of size 5). -/
def c8ex : Stats :=
  [⟨"a".toList, 5, 1⟩, ⟨"b".toList, 5, 2⟩, ⟨"c".toList, 3, 3⟩]

/-- C8: the report ordering is a stable sort on the chosen key: it is a
permutation of the aggregated items, it is sorted by the effective
comparator (the key comparison, inverted when reverse is set), and the
elements of any tie class keep exactly their original relative order (its
filter is unchanged by sorting), for both values of the reverse flag.
Moreover, on the concrete tied example c8ex, the reverse-sorted sequence
differs from the reversal of the forward-sorted sequence. -/
theorem c8_stable_sort (items : Stats) (sk : SortKey) (rev : Bool) :
    (sortedStats items sk rev).Perm items ∧
    (sortedStats items sk rev).Pairwise (fun a b => effLe sk rev a b = true) ∧
    (∀ q : StatEntry → Bool,
       (∀ x y, q x = true → q y = true → keyTie sk x y = true) →
       (sortedStats items sk rev).filter q = items.filter q) ∧
    sortedStats c8ex .size true ≠ (sortedStats c8ex .size false).reverse := by
  refine ⟨sortTE_perm _ items,
    pairwise_sortTE (effLe_total sk rev) (effLe_trans sk rev) items, ?_, ?_⟩
  · intro q hq
    refine filter_sortTE ?_ items
    intro x y hx hy
    have htie := hq x y hx hy
    unfold keyTie at htie
    have h2 := (Bool.and_eq_true _ _).mp htie
    unfold effLe
    cases rev with
    | false => exact h2.1
    | true => exact h2.2
  · decide

/-- Concrete instantiation of c8_stable_sort: the size-5 tie class of c8ex
keeps its original order under the reverse sort. -/
theorem c8_stable_sort_witness :
    (sortedStats c8ex .size true).filter (fun e => e.size == 5)
      = c8ex.filter (fun e => e.size == 5) := by
  refine (c8_stable_sort c8ex .size true).2.2.1 (fun e => e.size == 5) ?_
  intro x y hx hy
  have hx' : x.size = 5 := by simpa using hx
  have hy' : y.size = 5 := by simpa using hy
  simp [keyTie, keyLe, hx', hy']

/-! ## Reporter lemmas -/

lemma sumSizes_cons (e : StatEntry) (l : Stats) :
    sumSizes (e :: l) = e.size + sumSizes l := by
  simp [sumSizes]

lemma sumSizes_perm {l l' : Stats} (h : l.Perm l') : sumSizes l = sumSizes l' :=
  (h.map StatEntry.size).sum_eq

lemma sumSizes_sortedStats (items : Stats) (sk : SortKey) (rev : Bool) :
    sumSizes (sortedStats items sk rev) = sumSizes items :=
  sumSizes_perm (sortTE_perm _ items)

lemma processedAux_length (T : Int) :
    ∀ (l : Stats) (cum : Int), (processedAux T cum l).length = l.length := by
  intro l
  induction l with
  | nil => intro _; rfl
  | cons e rest ih =>
    intro cum
    show (processedAux T (cum + e.size) rest).length + 1 = rest.length + 1
    rw [ih (cum + e.size)]

lemma processedAux_mem (T : Int) :
    ∀ (l : Stats) (cum : Int) (r : Row), r ∈ processedAux T cum l →
      r.perc = pperc T r.size ∧ ∃ x, r.cumPerc = pperc T x := by
  intro l
  induction l with
  | nil => intro cum r hr; cases hr
  | cons e rest ih =>
    intro cum r hr
    rcases List.mem_cons.mp hr with hr | hr
    · rw [hr]
      exact ⟨rfl, ⟨cum + e.size, rfl⟩⟩
    · exact ih (cum + e.size) r hr

lemma processedAux_map_perc (T : Int) :
    ∀ (l : Stats) (cum : Int),
      (processedAux T cum l).map Row.perc = l.map (fun e => pperc T e.size) := by
  intro l
  induction l with
  | nil => intro _; rfl
  | cons e rest ih =>
    intro cum
    show pperc T e.size :: (processedAux T (cum + e.size) rest).map Row.perc
      = pperc T e.size :: rest.map (fun e => pperc T e.size)
    rw [ih (cum + e.size)]

lemma sum_map_pperc {T : Int} (hT : 0 < T) :
    ∀ l : Stats,
      (l.map (fun e => pperc T e.size)).sum = (sumSizes l : ℚ) / (T : ℚ) * 100 := by
  intro l
  induction l with
  | nil => simp [sumSizes]
  | cons e rest ih =>
    rw [List.map_cons, List.sum_cons, ih, sumSizes_cons]
    unfold pperc
    rw [if_pos hT]
    push_cast
    ring

lemma processedAux_ne_nil {T cum : Int} {l : Stats} (h : l ≠ []) :
    processedAux T cum l ≠ [] := by
  cases l with
  | nil => exact absurd rfl h
  | cons e rest => exact fun hc => List.noConfusion hc

lemma getLast?_cons_of_ne_nil {α : Type} (a : α) {l : List α} (h : l ≠ []) :
    (a :: l).getLast? = l.getLast? := by
  cases l with
  | nil => exact absurd rfl h
  | cons b m => exact List.getLast?_cons_cons

lemma processedAux_getLast (T : Int) :
    ∀ (l : Stats) (cum : Int), l ≠ [] →
      ∃ r, (processedAux T cum l).getLast? = some r ∧
        r.cumPerc = pperc T (cum + sumSizes l) := by
  intro l
  induction l with
  | nil => intro cum h; exact absurd rfl h
  | cons e rest ih =>
    intro cum _
    cases rest with
    | nil =>
      refine ⟨⟨e.name, e.size, e.count, pperc T e.size, pperc T (cum + e.size)⟩,
        rfl, ?_⟩
      show pperc T (cum + e.size) = pperc T (cum + sumSizes [e])
      congr 1
      simp [sumSizes]
    | cons f rest2 =>
      obtain ⟨r, hlast, hcum⟩ := ih (cum + e.size) (fun hc => List.noConfusion hc)
      refine ⟨r, ?_, ?_⟩
      · show (_ :: processedAux T (cum + e.size) (f :: rest2)).getLast? = some r
        rw [getLast?_cons_of_ne_nil _
          (processedAux_ne_nil (fun hc => List.noConfusion hc))]
        exact hlast
      · rw [hcum]
        congr 1
        simp only [sumSizes_cons]
        ring

/-- Shared helper: every row of processed_stats carries a percent computed
with the full total (the sum of all identities' sizes), and a cumulative
percent of the same guarded shape. -/
lemma processed_perc (items : Stats) (sk : SortKey) (rev : Bool) {r : Row}
    (hr : r ∈ processedStats items sk rev) :
    r.perc = pperc (sumSizes items) r.size ∧
    ∃ x, r.cumPerc = pperc (sumSizes items) x := by
  unfold processedStats at hr
  rw [sumSizes_sortedStats] at hr
  exact processedAux_mem _ _ 0 r hr

lemma processed_length (items : Stats) (sk : SortKey) (rev : Bool) :
    (processedStats items sk rev).length = items.length := by
  unfold processedStats
  rw [processedAux_length]
  exact (sortTE_perm _ items).length_eq

/-! ## C6: percentage formula and total-zero safety -/

/-- C6: every report row's percent equals 100 x size / total where total is
the sum of all identities' sizes; when the total is 0 the guard of
src/nixtat.py lines 178-179 takes the else branch, so every percent and
cumulative percent is 0 and the division is never executed; and for the
zero-entries store the report is empty (the run, modelled as a total
function pipeline, completes). -/
theorem c6_percent_safety (items : Stats) (sk : SortKey) (rev : Bool) :
    (∀ r ∈ processedStats items sk rev,
       (0 < sumSizes items →
          r.perc = 100 * (r.size : ℚ) / (sumSizes items : ℚ)) ∧
       (sumSizes items = 0 → r.perc = 0 ∧ r.cumPerc = 0)) ∧
    processedStats [] sk rev = [] := by
  constructor
  · intro r hr
    obtain ⟨hperc, x, hcum⟩ := processed_perc items sk rev hr
    constructor
    · intro hT
      rw [hperc]
      unfold pperc
      rw [if_pos hT]
      ring
    · intro hT
      rw [hperc, hcum]
      unfold pperc
      rw [hT]
      simp
  · rfl

/-- Example stats for the C6 witness: a single identity of size 2. -/
def c6ex : Stats := [⟨"a".toList, 2, 1⟩]

/-- Concrete instantiation of c6_percent_safety on c6ex. -/
theorem c6_percent_safety_witness :
    0 < sumSizes c6ex ∧
    (⟨"a".toList, 2, 1, pperc 2 2, pperc 2 2⟩ : Row).perc
      = 100 * (((⟨"a".toList, 2, 1, pperc 2 2, pperc 2 2⟩ : Row).size : ℚ))
          / ((sumSizes c6ex : Int) : ℚ) := by
  have hmem : (⟨"a".toList, 2, 1, pperc 2 2, pperc 2 2⟩ : Row)
      ∈ processedStats c6ex .size false := List.Mem.head _
  exact ⟨by decide,
    ((c6_percent_safety c6ex .size false).1 _ hmem).1 (by decide)⟩

/-! ## C7: percents sum to 100 in exact arithmetic -/

/-- C7: in exact arithmetic, when the total size is positive the percents
of all rows sum to exactly 100 and the cumulative percent of the last row
of the full sorted sequence is exactly 100; when the total size is 0 every
percent is 0. -/
theorem c7_percent_sum (items : Stats) (sk : SortKey) (rev : Bool) :
    (0 < sumSizes items →
       ((processedStats items sk rev).map Row.perc).sum = 100 ∧
       (∀ r, (processedStats items sk rev).getLast? = some r →
          r.cumPerc = 100)) ∧
    (sumSizes items = 0 → ∀ r ∈ processedStats items sk rev, r.perc = 0) := by
  constructor
  · intro hT
    have hTs : 0 < sumSizes (sortedStats items sk rev) := by
      rw [sumSizes_sortedStats]; exact hT
    have hTne : ((sumSizes (sortedStats items sk rev) : Int) : ℚ) ≠ 0 :=
      Int.cast_ne_zero.mpr (ne_of_gt hTs)
    constructor
    · unfold processedStats
      rw [processedAux_map_perc, sum_map_pperc hTs, div_self hTne, one_mul]
    · intro r hlast
      have hne : sortedStats items sk rev ≠ [] := by
        intro hc
        rw [hc] at hTs
        simp [sumSizes] at hTs
      obtain ⟨r', hlast', hcum⟩ := processedAux_getLast _ _ 0 hne
      unfold processedStats at hlast
      rw [hlast'] at hlast
      have hrr : r' = r := Option.some.inj hlast
      rw [← hrr, hcum, zero_add]
      unfold pperc
      rw [if_pos hTs, div_self hTne, one_mul]
  · intro hT r hr
    rw [(processed_perc items sk rev hr).1]
    unfold pperc
    rw [hT]
    simp

/-- Example stats for the C7 witness: two identities of sizes 1 and 3. -/
def c7ex : Stats := [⟨"a".toList, 1, 1⟩, ⟨"b".toList, 3, 1⟩]

/-- Concrete instantiation of c7_percent_sum on c7ex. -/
theorem c7_percent_sum_witness :
    0 < sumSizes c7ex ∧
    ((processedStats c7ex .size false).map Row.perc).sum = 100 :=
  ⟨by decide, ((c7_percent_sum c7ex .size false).1 (by decide)).1⟩

/-! ## C5: tail truncation over the full processed list -/

lemma displaySubset_eq_drop (n : Int) (l : List Row) :
    displaySubset n l = l.drop (l.length - n.toNat) := by
  unfold displaySubset
  split
  · rfl
  next h =>
    have h0 : n.toNat = 0 := Int.toNat_of_nonpos (le_of_not_lt h)
    rw [h0, Nat.sub_zero, List.drop_length]

lemma specLastRows_eq_drop (n : Int) (l : List Row) :
    specLastRows n l = l.drop (l.length - n.toNat) := by
  unfold specLastRows
  rw [List.reverse_take]
  simp

/-- C5: the displayed subset in human-readable mode is exactly the last N
rows of the processed sequence in the active sort order (all rows when N is
at least the row count), and each displayed row comes unchanged from the
full untruncated processed list, its percent computed against the full
total before truncation. -/
theorem c5_display_tail (items : Stats) (sk : SortKey) (rev : Bool) (N : Int) :
    displaySubset N (processedStats items sk rev)
      = specLastRows N (processedStats items sk rev) ∧
    (((processedStats items sk rev).length : Int) ≤ N →
       displaySubset N (processedStats items sk rev)
         = processedStats items sk rev) ∧
    (∀ r ∈ displaySubset N (processedStats items sk rev),
       r ∈ processedStats items sk rev ∧
       (0 < sumSizes items →
          r.perc = 100 * (r.size : ℚ) / (sumSizes items : ℚ))) := by
  refine ⟨?_, ?_, ?_⟩
  · rw [displaySubset_eq_drop, specLastRows_eq_drop]
  · intro hN
    rw [displaySubset_eq_drop]
    have hlen : (processedStats items sk rev).length ≤ N.toNat := by omega
    rw [Nat.sub_eq_zero_of_le hlen, List.drop_zero]
  · intro r hr
    rw [displaySubset_eq_drop] at hr
    have hmem : r ∈ processedStats items sk rev :=
      (List.drop_sublist _ _).subset hr
    refine ⟨hmem, ?_⟩
    intro hT
    rw [(processed_perc items sk rev hmem).1]
    unfold pperc
    rw [if_pos hT]
    ring

/-- Example stats for the C5 witness. -/
def c5ex : Stats := [⟨"a".toList, 4, 1⟩]

/-- Concrete instantiation of c5_display_tail: a limit above the row count
displays all rows. -/
theorem c5_display_tail_witness :
    displaySubset 7 (processedStats c5ex .size false)
      = processedStats c5ex .size false :=
  (c5_display_tail c5ex .size false 7).2.1 (by decide)

/-! ## C10: plain mode ignores the display limit -/

/-- C10: in plain (non-interactive) output mode the -n limit and the --full
override have no effect: the printed rows are exactly the processed rows,
one line per aggregated identity, whatever nOpt and full hold; the limit
logic runs only in human-readable mode. -/
theorem c10_plain_mode (cfg : Config) (items : Stats)
    (hplain : cfg.humanReadable = false) :
    displayedRows cfg (processedStats items cfg.sortKey cfg.reverse)
      = processedStats items cfg.sortKey cfg.reverse ∧
    (∀ (n' : Option Int) (full' : Bool),
       displayedRows { cfg with nOpt := n', full := full' }
           (processedStats items cfg.sortKey cfg.reverse)
         = processedStats items cfg.sortKey cfg.reverse) ∧
    (displayedRows cfg (processedStats items cfg.sortKey cfg.reverse)).length
      = items.length := by
  have hmain : ∀ c : Config, c.humanReadable = false →
      ∀ rows : List Row, displayedRows c rows = rows := by
    intro c hc rows
    unfold displayedRows
    simp [hc]
  refine ⟨hmain cfg hplain _, ?_, ?_⟩
  · intro n' full'
    exact hmain { cfg with nOpt := n', full := full' } hplain _
  · rw [hmain cfg hplain, processed_length]

/-- Example configuration and stats for the C10 witness. -/
def c10cfg : Config := ⟨false, false, false, .size, false, some 1, false, 10⟩

/-- Example stats for the C10 witness. -/
def c10ex : Stats := [⟨"a".toList, 1, 1⟩, ⟨"b".toList, 2, 1⟩]

/-- Concrete instantiation of c10_plain_mode: with -n 1 set but plain
output, both rows are printed. -/
theorem c10_plain_mode_witness :
    displayedRows c10cfg (processedStats c10ex c10cfg.sortKey c10cfg.reverse)
      = processedStats c10ex c10cfg.sortKey c10cfg.reverse ∧
    (displayedRows c10cfg
        (processedStats c10ex c10cfg.sortKey c10cfg.reverse)).length
      = c10ex.length := by
  have h := c10_plain_mode c10cfg c10ex (by decide)
  exact ⟨h.1, h.2.2⟩
